import Mathlib

/-!
Verification of the `gen` code-generation library (package gen, file gen.go).

Go strings are embedded as `List Char`; the mutable `Generator` struct becomes
a record threaded through each operation.  Go library helpers used by the
source (`strings.Split`, `strings.Repeat`, `strings.HasSuffix`, `fmt.Sprintf`)
are given executable models below.  `strings.Repeat` panics on a negative
count, so it returns an `Option`; operations that can reach that panic are
`Option`-valued, with `none` modelling a propagating panic.
-/

/-- Go strings, embedded as lists of characters. -/
abbrev Str := List Char

/-- Model of Go `strings.Split(s, "\n")`: splits `s` on newline characters,
keeping empty pieces; always returns at least one piece. -/
def splitOnNl : Str → List Str
  | [] => [[]]
  | c :: rest =>
    let r := splitOnNl rest
    if c = '\n' then [] :: r
    else
      match r with
      | [] => [[c]]
      | h :: t => (c :: h) :: t

/-- Model of Go `strings.HasSuffix(s, "\n")`: true iff the last character of
`s` is a newline. -/
def endsWithNl (s : Str) : Bool :=
  match s.getLast? with
  | some c => c == '\n'
  | none => false

/-- Model of Go `strings.Repeat(s, count)`: the concatenation of `count`
copies of `s`; Go panics when `count` is negative, modelled as `none`. -/
def stringsRepeat (s : Str) (count : Int) : Option Str :=
  if count < 0 then none
  else some (List.flatten (List.replicate count.toNat s))

/-- The `Generator` struct from gen.go: a string builder, the indentation
level (a Go `int`, embedded as `Int`), the indentation unit string, and the
flag tracking whether the next write should be indented. -/
structure Generator where
  sb : Str
  indentLevel : Int
  indentString : Str
  atStartOfLine : Bool
deriving DecidableEq

/-- `New` from gen.go: default two-space unit, depth 0, at start of line. -/
def Generator.New : Generator :=
  { sb := [], indentLevel := 0, indentString := [' ', ' '], atStartOfLine := true }

/-- `WithSpaces` from gen.go: sets the unit to `spaces` space characters via
`strings.Repeat`, which panics (`none`) when `spaces` is negative. -/
def Generator.WithSpaces (g : Generator) (spaces : Int) : Option Generator :=
  (stringsRepeat [' '] spaces).map (fun u => { g with indentString := u })

/-- `WithTabs` from gen.go: sets the unit to a single tab character. -/
def Generator.WithTabs (g : Generator) : Generator :=
  { g with indentString := ['\t'] }

/-- `Indent` from gen.go: increments the indentation level. -/
def Generator.Indent (g : Generator) : Generator :=
  { g with indentLevel := g.indentLevel + 1 }

/-- `Dedent` from gen.go: decrements the indentation level only when it is
positive. -/
def Generator.Dedent (g : Generator) : Generator :=
  if 0 < g.indentLevel then { g with indentLevel := g.indentLevel - 1 } else g

/-- `Raw` from gen.go: appends `content` verbatim; afterwards the
start-of-line flag records whether `content` ends with a newline.  Empty
content returns the generator unchanged. -/
def Generator.Raw (g : Generator) (content : Str) : Generator :=
  if content = [] then g
  else { g with sb := g.sb ++ content, atStartOfLine := endsWithNl content }

/-- `Break` from gen.go: writes one newline and marks start of line. -/
def Generator.Break (g : Generator) : Generator :=
  { g with sb := g.sb ++ ['\n'], atStartOfLine := true }

/-- The body of the `for` loop of `Inline` for one subline (gen.go lines
114-120): a non-empty subline is written, preceded by the indentation
prefix when at start of line (where `strings.Repeat` may panic), and clears
the start-of-line flag; an empty subline does nothing. -/
def Generator.writeSubline (g : Generator) (subline : Str) : Option Generator :=
  if subline = [] then some g
  else
    match (if g.atStartOfLine then stringsRepeat g.indentString g.indentLevel else some []) with
    | none => none
    | some pad => some { g with sb := g.sb ++ pad ++ subline, atStartOfLine := false }

/-- One iteration of `Inline`'s loop with `idx > 0` (gen.go lines 109-120):
a newline is written and the start-of-line flag set before the subline is
processed. -/
def Generator.inlineStep (g : Generator) (subline : Str) : Option Generator :=
  Generator.writeSubline { g with sb := g.sb ++ ['\n'], atStartOfLine := true } subline

/-- The remaining iterations of `Inline`'s loop over the sublines after the
first. -/
def Generator.inlineLoop (g : Generator) : List Str → Option Generator
  | [] => some g
  | p :: rest => (g.inlineStep p).bind (fun g1 => g1.inlineLoop rest)

/-- `Inline` from gen.go: empty content is a no-op; otherwise the content is
split on newlines, each subline is processed by the loop, and if the content
ends with a newline the start-of-line flag is set afterwards. -/
def Generator.Inline (g : Generator) (content : Str) : Option Generator :=
  if content = [] then some g
  else
    match splitOnNl content with
    | [] => some g
    | p :: rest =>
      (g.writeSubline p).bind (fun g1 =>
        (g1.inlineLoop rest).map (fun g2 =>
          if endsWithNl content then { g2 with atStartOfLine := true } else g2))

/-- `Line` from gen.go: `Inline` on the content followed by `Break`; a panic
inside `Inline` propagates before `Break` runs. -/
def Generator.Line (g : Generator) (content : Str) : Option Generator :=
  (g.Inline content).map Generator.Break

/-- `Block` from gen.go: `Indent`, then the callback, then `Dedent`.  The
callback mutates the generator and may panic, modelled as
`Except Generator Generator` whose `error` carries the generator state at
the panic; the source has no `defer`, so a panic propagates without the
`Dedent` running. -/
def Generator.Block (g : Generator) (fn : Generator → Except Generator Generator) :
    Except Generator Generator :=
  match fn g.Indent with
  | .error gp => .error gp
  | .ok g2 => .ok g2.Dedent

/-- `String` from gen.go: returns the accumulated buffer. -/
def Generator.String (g : Generator) : Str :=
  g.sb

/-- An argument passed to a formatted variant (`...any` in Go), restricted to
the integer and string cases. -/
inductive FmtArg where
  | int (i : Int)
  | str (s : Str)
deriving DecidableEq

/-- The Go value rendered by `fmt` for an argument. -/
def FmtArg.render : FmtArg → Str
  | .int i => (toString i).data
  | .str s => s

/-- The Go type name `fmt` prints inside error annotations. -/
def FmtArg.typeName : FmtArg → Str
  | .int _ => "int".data
  | .str _ => "string".data

/-- The `%!(EXTRA type=value, ...)` list `fmt` appends for unconsumed
arguments. -/
def fmtExtraArgs : List FmtArg → Str
  | [] => []
  | [a] => a.typeName ++ ['='] ++ a.render
  | a :: rest => a.typeName ++ ['='] ++ a.render ++ ", ".data ++ fmtExtraArgs rest

/-- Model of Go `fmt.Sprintf` (standard library, not part of this
repository) restricted to the `%d`, `%s` and `%%` verbs over integer and
string arguments.  Faithful to the documented `fmt` behaviour: a mismatch
never fails; instead an error annotation such as `%!d(string=x)`,
`%!d(MISSING)`, `%!(NOVERB)` or `%!(EXTRA ...)` is embedded in the returned
string. -/
def fmtRun : Str → List FmtArg → Str
  | [], [] => []
  | [], a :: rest => "%!(EXTRA ".data ++ fmtExtraArgs (a :: rest) ++ [')']
  | ['%'], args => "%!(NOVERB)".data ++ fmtRun [] args
  | '%' :: '%' :: rest, args => '%' :: fmtRun rest args
  | '%' :: 'd' :: rest, [] => "%!d(MISSING)".data ++ fmtRun rest []
  | '%' :: 'd' :: rest, (.int i) :: args => (toString i).data ++ fmtRun rest args
  | '%' :: 'd' :: rest, (.str s) :: args =>
      "%!d(string=".data ++ s ++ [')'] ++ fmtRun rest args
  | '%' :: 's' :: rest, [] => "%!s(MISSING)".data ++ fmtRun rest []
  | '%' :: 's' :: rest, (.str s) :: args => s ++ fmtRun rest args
  | '%' :: 's' :: rest, (.int i) :: args =>
      "%!s(int=".data ++ (toString i).data ++ [')'] ++ fmtRun rest args
  | '%' :: v :: rest, [] => '%' :: '!' :: v :: "(MISSING)".data ++ fmtRun rest []
  | '%' :: v :: rest, a :: args =>
      '%' :: '!' :: v :: '(' :: (a.typeName ++ ['='] ++ a.render ++ [')']) ++ fmtRun rest args
  | c :: rest, args => c :: fmtRun rest args

/-- `fmt.Sprintf` over a template and an argument list. -/
def fmtSprintf (format : Str) (args : List FmtArg) : Str :=
  fmtRun format args

/-- `Rawf` from gen.go: formats and delegates to `Raw`. -/
def Generator.Rawf (g : Generator) (format : Str) (args : List FmtArg) : Generator :=
  g.Raw (fmtSprintf format args)

/-- `Inlinef` from gen.go: formats and delegates to `Inline`. -/
def Generator.Inlinef (g : Generator) (format : Str) (args : List FmtArg) : Option Generator :=
  g.Inline (fmtSprintf format args)

/-- `Linef` from gen.go: formats and delegates to `Line`. -/
def Generator.Linef (g : Generator) (format : Str) (args : List FmtArg) : Option Generator :=
  g.Line (fmtSprintf format args)

/-- A single non-nesting operation of the public surface of gen.go. -/
inductive Op where
  | withSpaces (n : Int)
  | withTabs
  | indent
  | dedent
  | raw (c : Str)
  | lineBreak
  | inline (c : Str)
  | line (c : Str)
deriving DecidableEq

/-- Execution of one operation; `none` models a propagating panic (the
negative-count `strings.Repeat` panic is the only source). -/
def execOp : Op → Generator → Option Generator
  | .withSpaces n, g => g.WithSpaces n
  | .withTabs, g => some g.WithTabs
  | .indent, g => some g.Indent
  | .dedent, g => some g.Dedent
  | .raw c, g => some (g.Raw c)
  | .lineBreak, g => some g.Break
  | .inline c, g => g.Inline c
  | .line c, g => g.Line c

/-- A program over the generator: a sequence of operations in which `block`
is the `Block` helper of gen.go running a sub-program as its callback.  As
in the source, `block` is `Indent`, the body, then `Dedent`, and a panic in
the body propagates past the `Dedent`. -/
inductive Prog where
  | done
  | op (o : Op) (rest : Prog)
  | block (body : Prog) (rest : Prog)
deriving DecidableEq

/-- Execution of a program from a generator state. -/
def execProg : Prog → Generator → Option Generator
  | .done, g => some g
  | .op o rest, g => (execOp o g).bind (execProg rest)
  | .block body rest, g =>
      ((execProg body g.Indent).map Generator.Dedent).bind (execProg rest)

/-- The indentation text written at line starts: the unit repeated by the
(non-negative) level. -/
def padOf (g : Generator) : Str :=
  List.flatten (List.replicate g.indentLevel.toNat g.indentString)

/-- The characters one subline contributes to the buffer, given the
start-of-line flag in force when it is written. -/
def rPiece (pad : Str) (atStart : Bool) (p : Str) : Str :=
  if p = [] then [] else (if atStart then pad else []) ++ p

/-- The characters the sublines after the first contribute: a newline before
each, and each written from start of line. -/
def rTail (pad : Str) (ps : List Str) : Str :=
  (ps.map (fun p => '\n' :: rPiece pad true p)).flatten

/-- The start-of-line flag after the loop runs over the sublines after the
first. -/
def tailFlag (ps : List Str) (b : Bool) : Bool :=
  ps.foldl (fun _ p => decide (p = [])) b

lemma splitOnNl_ne_nil (c : Str) : splitOnNl c ≠ [] := by
  induction c with
  | nil => simp [splitOnNl]
  | cons a rest ih =>
    simp only [splitOnNl]
    split
    · simp
    · split
      · simp
      · simp

lemma splitOnNl_no_nl (c : Str) : ∀ p ∈ splitOnNl c, '\n' ∉ p := by
  induction c with
  | nil =>
    intro p hp
    simp [splitOnNl] at hp
    simp [hp]
  | cons a rest ih =>
    intro p hp
    simp only [splitOnNl] at hp
    by_cases ha : a = '\n'
    · simp [ha] at hp
      rcases hp with hp | hp
      · simp [hp]
      · exact ih p hp
    · simp only [if_neg ha] at hp
      rcases hr : splitOnNl rest with _ | ⟨h, t⟩
      · exact absurd hr (splitOnNl_ne_nil rest)
      · rw [hr] at hp
        simp only [List.mem_cons] at hp
        rcases hp with hp | hp
        · subst hp
          intro hmem
          rcases List.mem_cons.mp hmem with h1 | h1
          · exact ha h1.symm
          · exact ih h (by simp [hr]) h1
        · exact ih p (by simp [hr, hp])

lemma splitOnNl_eq_singleton_nil (c : Str) (h : splitOnNl c = [[]]) : c = [] := by
  cases c with
  | nil => rfl
  | cons a rest =>
    exfalso
    simp only [splitOnNl] at h
    by_cases ha : a = '\n'
    · simp [ha] at h
      exact splitOnNl_ne_nil rest h
    · simp only [if_neg ha] at h
      rcases hr : splitOnNl rest with _ | ⟨hd, t⟩
      · exact splitOnNl_ne_nil rest hr
      · rw [hr] at h
        simp at h

lemma splitOnNl_of_no_nl (c : Str) (h : '\n' ∉ c) : splitOnNl c = [c] := by
  induction c with
  | nil => rfl
  | cons a rest ih =>
    have ha : a ≠ '\n' := fun e => h (by simp [e])
    have hrest : '\n' ∉ rest := fun e => h (by simp [e])
    simp only [splitOnNl, ih hrest]
    rw [if_neg ha]

lemma endsWithNl_iff (s : Str) : endsWithNl s = true ↔ s.getLast? = some '\n' := by
  unfold endsWithNl
  rcases h : s.getLast? with _ | c
  · simp
  · simp

lemma stringsRepeat_of_nonneg (s : Str) (n : Int) (h : 0 ≤ n) :
    stringsRepeat s n = some (List.flatten (List.replicate n.toNat s)) := by
  simp [stringsRepeat, not_lt.mpr h]

lemma tailFlag_cons (p : Str) (rest : List Str) (b : Bool) :
    tailFlag (p :: rest) b = tailFlag rest (decide (p = [])) := rfl

lemma tailFlag_ne_nil (ps : List Str) (hps : ps ≠ []) (b : Bool) :
    tailFlag ps b = decide (ps.getLast? = some []) := by
  induction ps generalizing b with
  | nil => exact absurd rfl hps
  | cons p rest ih =>
    rcases rest with _ | ⟨q, t⟩
    · simp [tailFlag]
    · rw [tailFlag_cons, ih (by simp), List.getLast?_cons_cons]

lemma rTail_cons (pad : Str) (p : Str) (rest : List Str) :
    rTail pad (p :: rest) = ('\n' :: rPiece pad true p) ++ rTail pad rest := by
  simp [rTail]

lemma splitOnNl_getLast_nil_iff (c : Str) (hc : c ≠ []) :
    (splitOnNl c).getLast? = some [] ↔ endsWithNl c = true := by
  rw [endsWithNl_iff]
  induction c with
  | nil => exact absurd rfl hc
  | cons a rest ih =>
    by_cases hr0 : rest = []
    · subst hr0
      by_cases ha : a = '\n'
      · simp [splitOnNl, ha]
      · simp [splitOnNl, ha]
    · have ihr := ih hr0
      have hlast : (a :: rest).getLast? = rest.getLast? := by
        rcases rest with _ | ⟨b, t⟩
        · exact absurd rfl hr0
        · exact List.getLast?_cons_cons
      rw [hlast]
      simp only [splitOnNl]
      by_cases ha : a = '\n'
      · rw [if_pos ha]
        have : ([] :: splitOnNl rest).getLast? = (splitOnNl rest).getLast? := by
          rcases h : splitOnNl rest with _ | ⟨hd, t⟩
          · exact absurd h (splitOnNl_ne_nil rest)
          · exact List.getLast?_cons_cons
        rw [this, ihr]
      · rw [if_neg ha]
        rcases hr : splitOnNl rest with _ | ⟨hd, t⟩
        · exact absurd hr (splitOnNl_ne_nil rest)
        · rcases t with _ | ⟨t1, t2⟩
          · constructor
            · intro h
              simp at h
            · intro h
              rw [hr] at ihr
              have : hd = [] := by
                have := ihr.mpr h
                simpa using this
              subst this
              exact absurd (splitOnNl_eq_singleton_nil rest hr) hr0
          · rw [List.getLast?_cons_cons]
            rw [hr] at ihr
            rw [List.getLast?_cons_cons] at ihr
            exact ihr

lemma writeSubline_eq (g : Generator) (p : Str) (h : 0 ≤ g.indentLevel) :
    g.writeSubline p = some { g with
      sb := g.sb ++ rPiece (padOf g) g.atStartOfLine p,
      atStartOfLine := if p = [] then g.atStartOfLine else false } := by
  unfold Generator.writeSubline
  by_cases hp : p = []
  · simp [hp, rPiece]
  · rw [if_neg hp]
    cases hs : g.atStartOfLine with
    | true =>
      rw [if_pos rfl, stringsRepeat_of_nonneg _ _ h]
      simp [rPiece, hp, hs, padOf, List.append_assoc]
    | false =>
      simp [rPiece, hp, hs]

lemma inlineStep_eq (g : Generator) (p : Str) (h : 0 ≤ g.indentLevel) :
    g.inlineStep p = some { g with
      sb := g.sb ++ '\n' :: rPiece (padOf g) true p,
      atStartOfLine := decide (p = []) } := by
  unfold Generator.inlineStep
  rw [writeSubline_eq { g with sb := g.sb ++ ['\n'], atStartOfLine := true } p h]
  by_cases hp : p = [] <;> simp [hp, padOf, List.append_assoc]

lemma inlineLoop_eq (ps : List Str) : ∀ (g : Generator), 0 ≤ g.indentLevel →
    g.inlineLoop ps = some { g with
      sb := g.sb ++ rTail (padOf g) ps,
      atStartOfLine := tailFlag ps g.atStartOfLine } := by
  induction ps with
  | nil =>
    intro g h
    simp [Generator.inlineLoop, rTail, tailFlag]
  | cons p rest ih =>
    intro g h
    simp only [Generator.inlineLoop]
    rw [inlineStep_eq g p h]
    simp only [Option.some_bind]
    rw [ih { g with sb := g.sb ++ '\n' :: rPiece (padOf g) true p, atStartOfLine := decide (p = []) } h]
    rw [rTail_cons, tailFlag_cons]
    simp [padOf, List.append_assoc]

lemma inline_cons (g : Generator) (c : Str) (hc : c ≠ [])
    (p : Str) (ps : List Str) (hsplit : splitOnNl c = p :: ps) :
    g.Inline c = (g.writeSubline p).bind (fun g1 =>
      (g1.inlineLoop ps).map (fun g2 =>
        if endsWithNl c then { g2 with atStartOfLine := true } else g2)) := by
  unfold Generator.Inline
  rw [if_neg hc, hsplit]

lemma inline_eq (g : Generator) (c : Str) (h : 0 ≤ g.indentLevel) (hc : c ≠ [])
    (p : Str) (ps : List Str) (hsplit : splitOnNl c = p :: ps) :
    g.Inline c = some { g with
      sb := g.sb ++ rPiece (padOf g) g.atStartOfLine p ++ rTail (padOf g) ps,
      atStartOfLine := endsWithNl c } := by
  rw [inline_cons g c hc p ps hsplit, writeSubline_eq g p h]
  simp only [Option.some_bind]
  rw [inlineLoop_eq ps { g with sb := g.sb ++ rPiece (padOf g) g.atStartOfLine p, atStartOfLine := if p = [] then g.atStartOfLine else false } h]
  simp only [Option.map_some']
  have hpads : padOf { g with sb := g.sb ++ rPiece (padOf g) g.atStartOfLine p, atStartOfLine := if p = [] then g.atStartOfLine else false } = padOf g := rfl
  rw [hpads]
  by_cases he : endsWithNl c = true
  · rw [if_pos he, he]
  · rw [if_neg he]
    have hflag : tailFlag ps (if p = [] then g.atStartOfLine else false) = endsWithNl c := by
      rcases hps : ps with _ | ⟨q, t⟩
      · have hp : p ≠ [] := by
          intro hp0
          rw [hp0, hps] at hsplit
          exact hc (splitOnNl_eq_singleton_nil c hsplit)
        rw [if_neg hp]
        simp only [tailFlag, List.foldl_nil]
        cases hee : endsWithNl c
        · rfl
        · exact absurd hee he
      · rw [tailFlag_ne_nil (q :: t) (by simp) _]
        have hlast : (splitOnNl c).getLast? = (q :: t).getLast? := by
          rw [hsplit, hps, List.getLast?_cons_cons]
        cases hee : endsWithNl c
        · have : ¬((splitOnNl c).getLast? = some []) := by
            intro hcon
            have := (splitOnNl_getLast_nil_iff c hc).mp hcon
            rw [hee] at this
            exact Bool.false_ne_true this
          rw [← hlast]
          simpa using this
        · exact absurd hee he
    rw [hflag]

lemma inline_nil (g : Generator) : g.Inline [] = some g := rfl

lemma splitOnNl_cons (c : Str) : ∃ p ps, splitOnNl c = p :: ps := by
  rcases h : splitOnNl c with _ | ⟨p, ps⟩
  · exact absurd h (splitOnNl_ne_nil c)
  · exact ⟨p, ps, rfl⟩

lemma rTail_ne_nil (pad : Str) (ps : List Str) (h : ps ≠ []) : rTail pad ps ≠ [] := by
  rcases ps with _ | ⟨q, t⟩
  · exact absurd rfl h
  · rw [rTail_cons]
    simp

lemma rTail_last_of_nil_last (pad : Str) (ps : List Str) (h : ps.getLast? = some []) :
    (rTail pad ps).getLast? = some '\n' := by
  induction ps with
  | nil => simp at h
  | cons q t ih =>
    rcases t with _ | ⟨q2, t2⟩
    · simp at h
      rw [rTail_cons]
      simp [rTail, h, rPiece]
    · rw [List.getLast?_cons_cons] at h
      rw [rTail_cons, List.getLast?_append_of_ne_nil _ (rTail_ne_nil pad (q2 :: t2) (by simp))]
      exact ih h

lemma rTail_last_of_last_ne_nil (pad : Str) (ps : List Str) (q : Str)
    (h : ps.getLast? = some q) (hq : q ≠ []) :
    (rTail pad ps).getLast? = q.getLast? := by
  induction ps with
  | nil => simp at h
  | cons q1 t ih =>
    rcases t with _ | ⟨q2, t2⟩
    · have hq1 : q1 = q := by simpa using h
      subst hq1
      have h1 : rTail pad [q1] = ('\n' :: pad) ++ q1 := by
        simp [rTail, rPiece, hq]
      rw [h1, List.getLast?_append_of_ne_nil _ hq]
    · rw [List.getLast?_cons_cons] at h
      rw [rTail_cons, List.getLast?_append_of_ne_nil _ (rTail_ne_nil pad (q2 :: t2) (by simp))]
      exact ih h

/-- The implicit relation between the cursor flag and the buffer: at start
of line iff the buffer is empty or ends with a newline. -/
def flagBufferInv (g : Generator) : Prop :=
  g.atStartOfLine = true ↔ (g.sb = [] ∨ g.sb.getLast? = some '\n')

/-- The reachable-state invariant: non-negative depth together with the
buffer/cursor relation. -/
def stateInv (g : Generator) : Prop :=
  0 ≤ g.indentLevel ∧ flagBufferInv g

lemma last_ne_nl_of_mem_split (c q : Str) (ch : Char) (hq : q ∈ splitOnNl c)
    (h : q.getLast? = some ch) : ch ≠ '\n' := by
  intro e
  rw [e] at h
  exact splitOnNl_no_nl c q hq (List.mem_of_getLast?_eq_some h)

lemma last_of_ne_nil {α : Type} (q : List α) (hq : q ≠ []) : ∃ ch, q.getLast? = some ch := by
  rcases h : q.getLast? with _ | ch
  · exact absurd (List.getLast?_eq_none_iff.mp h) hq
  · exact ⟨ch, rfl⟩

lemma getLast?_cons_of_ne_nil {α : Type} (a : α) (l : List α) (h : l ≠ []) :
    (a :: l).getLast? = l.getLast? := by
  rcases l with _ | ⟨b, t⟩
  · exact absurd rfl h
  · exact List.getLast?_cons_cons

lemma inline_flagBufferInv (g g' : Generator) (c : Str) (hd : 0 ≤ g.indentLevel)
    (hfi : flagBufferInv g) (hres : g.Inline c = some g') : flagBufferInv g' := by
  by_cases hc : c = []
  · subst hc
    rw [inline_nil] at hres
    cases hres
    exact hfi
  · obtain ⟨p, ps, hsplit⟩ := splitOnNl_cons c
    rw [inline_eq g c hd hc p ps hsplit] at hres
    have hg' : { g with
        sb := g.sb ++ rPiece (padOf g) g.atStartOfLine p ++ rTail (padOf g) ps,
        atStartOfLine := endsWithNl c } = g' := by
      injection hres
    subst hg'
    have hp : ps = [] → p ≠ [] := by
      intro hps hp0
      rw [hp0, hps] at hsplit
      exact hc (splitOnNl_eq_singleton_nil c hsplit)
    unfold flagBufferInv
    simp only []
    cases he : endsWithNl c
    · simp only [Bool.false_eq_true, false_iff]
      push_neg
      by_cases hps : ps = []
      · have hpne := hp hps
        have hrt : rTail (padOf g) ps = [] := by rw [hps]; simp [rTail]
        rw [hrt, List.append_nil]
        have hrp : rPiece (padOf g) g.atStartOfLine p =
            (if g.atStartOfLine then padOf g else []) ++ p := by
          rw [rPiece, if_neg hpne]
        obtain ⟨ch, hch⟩ := last_of_ne_nil p hpne
        have hchn : ch ≠ '\n' := last_ne_nl_of_mem_split c p ch (by rw [hsplit]; simp) hch
        have hlast : (g.sb ++ rPiece (padOf g) g.atStartOfLine p).getLast? = some ch := by
          rw [hrp, ← List.append_assoc, List.getLast?_append_of_ne_nil _ hpne, hch]
        constructor
        · intro hnil
          rw [hnil] at hlast
          simp at hlast
        · rw [hlast]
          simp [hchn]
      · obtain ⟨q, hq⟩ := last_of_ne_nil ps hps
        have hqne : q ≠ [] := by
          intro hq0
          rw [hq0] at hq
          have hfull : (splitOnNl c).getLast? = some [] := by
            rw [hsplit, getLast?_cons_of_ne_nil p ps hps]
            exact hq
          have := (splitOnNl_getLast_nil_iff c hc).mp hfull
          rw [he] at this
          exact Bool.false_ne_true this
        obtain ⟨ch, hch⟩ := last_of_ne_nil q hqne
        have hchn : ch ≠ '\n' := by
          refine last_ne_nl_of_mem_split c q ch ?_ hch
          rw [hsplit]
          exact List.mem_cons_of_mem p (List.mem_of_getLast?_eq_some hq)
        have hrt : (rTail (padOf g) ps).getLast? = some ch := by
          rw [rTail_last_of_last_ne_nil (padOf g) ps q hq hqne, hch]
        have hlast : (g.sb ++ rPiece (padOf g) g.atStartOfLine p ++ rTail (padOf g) ps).getLast? = some ch := by
          rw [List.getLast?_append_of_ne_nil _ (rTail_ne_nil (padOf g) ps hps), hrt]
        constructor
        · intro hnil
          rw [hnil] at hlast
          simp at hlast
        · rw [hlast]
          simp [hchn]
    · simp only [true_iff]
      right
      have hfull : (splitOnNl c).getLast? = some [] := (splitOnNl_getLast_nil_iff c hc).mpr he
      rw [hsplit] at hfull
      by_cases hps : ps = []
      · rw [hps] at hfull
        simp at hfull
        exact absurd hfull (hp hps)
      · have hlastps : ps.getLast? = some [] := by
          rw [getLast?_cons_of_ne_nil p ps hps] at hfull
          exact hfull
        have hrt : (rTail (padOf g) ps).getLast? = some '\n' :=
          rTail_last_of_nil_last (padOf g) ps hlastps
        rw [List.getLast?_append_of_ne_nil _ (rTail_ne_nil (padOf g) ps hps), hrt]

lemma raw_fields (g : Generator) (c : Str) :
    (g.Raw c).indentLevel = g.indentLevel ∧ (g.Raw c).indentString = g.indentString := by
  unfold Generator.Raw
  split
  · exact ⟨rfl, rfl⟩
  · exact ⟨rfl, rfl⟩

lemma flagBufferInv_raw (g : Generator) (c : Str) (hfi : flagBufferInv g) :
    flagBufferInv (g.Raw c) := by
  by_cases hc : c = []
  · subst hc
    have h0 : g.Raw [] = g := by simp [Generator.Raw]
    rw [h0]
    exact hfi
  · unfold Generator.Raw
    rw [if_neg hc]
    unfold flagBufferInv
    simp only []
    rw [endsWithNl_iff, List.getLast?_append_of_ne_nil _ hc]
    constructor
    · intro h
      exact Or.inr h
    · intro h
      rcases h with h | h
      · exact absurd h (by simp [hc])
      · exact h

lemma flagBufferInv_break (g : Generator) : flagBufferInv g.Break := by
  unfold Generator.Break flagBufferInv
  simp [List.getLast?_concat]

lemma inline_fields (g g' : Generator) (c : Str) (hd : 0 ≤ g.indentLevel)
    (hres : g.Inline c = some g') :
    g'.indentLevel = g.indentLevel ∧ g'.indentString = g.indentString := by
  by_cases hc : c = []
  · subst hc
    rw [inline_nil] at hres
    cases hres
    exact ⟨rfl, rfl⟩
  · obtain ⟨p, ps, hsplit⟩ := splitOnNl_cons c
    rw [inline_eq g c hd hc p ps hsplit] at hres
    have h : { g with
        sb := g.sb ++ rPiece (padOf g) g.atStartOfLine p ++ rTail (padOf g) ps,
        atStartOfLine := endsWithNl c } = g' := by
      injection hres
    rw [← h]
    exact ⟨rfl, rfl⟩

lemma stateInv_indent (g : Generator) (hg : stateInv g) : stateInv g.Indent := by
  obtain ⟨hd, hfi⟩ := hg
  refine ⟨?_, hfi⟩
  show (0:Int) ≤ g.indentLevel + 1
  omega

lemma stateInv_dedent (g : Generator) (hg : stateInv g) : stateInv g.Dedent := by
  obtain ⟨hd, hfi⟩ := hg
  unfold Generator.Dedent
  by_cases hlt : 0 < g.indentLevel
  · rw [if_pos hlt]
    refine ⟨?_, hfi⟩
    show (0:Int) ≤ g.indentLevel - 1
    omega
  · rw [if_neg hlt]
    exact ⟨hd, hfi⟩

lemma stateInv_break (g : Generator) (hg : stateInv g) : stateInv g.Break :=
  ⟨hg.1, flagBufferInv_break g⟩

lemma stateInv_execOp (o : Op) (g g' : Generator) (hg : stateInv g)
    (h : execOp o g = some g') : stateInv g' := by
  obtain ⟨hd, hfi⟩ := hg
  cases o with
  | withSpaces n =>
    simp only [execOp, Generator.WithSpaces] at h
    rcases hu : stringsRepeat [' '] n with _ | u
    · rw [hu] at h
      simp at h
    · rw [hu] at h
      simp only [Option.map_some'] at h
      cases h
      exact ⟨hd, hfi⟩
  | withTabs =>
    simp only [execOp] at h
    cases h
    exact ⟨hd, hfi⟩
  | indent =>
    simp only [execOp] at h
    cases h
    exact stateInv_indent g ⟨hd, hfi⟩
  | dedent =>
    simp only [execOp] at h
    cases h
    exact stateInv_dedent g ⟨hd, hfi⟩
  | raw c =>
    simp only [execOp] at h
    cases h
    refine ⟨?_, flagBufferInv_raw g c hfi⟩
    rw [(raw_fields g c).1]
    exact hd
  | lineBreak =>
    simp only [execOp] at h
    cases h
    exact stateInv_break g ⟨hd, hfi⟩
  | inline c =>
    simp only [execOp] at h
    refine ⟨?_, inline_flagBufferInv g g' c hd hfi h⟩
    rw [(inline_fields g g' c hd h).1]
    exact hd
  | line c =>
    simp only [execOp, Generator.Line] at h
    rcases hgi : g.Inline c with _ | gi
    · rw [hgi] at h
      simp at h
    · rw [hgi] at h
      simp only [Option.map_some', Option.some_inj] at h
      have hgiInv : stateInv gi := by
        refine ⟨?_, inline_flagBufferInv g gi c hd hfi hgi⟩
        rw [(inline_fields g gi c hd hgi).1]
        exact hd
      rw [← h]
      exact stateInv_break gi hgiInv

lemma stateInv_execProg (pr : Prog) : ∀ (g g' : Generator), stateInv g →
    execProg pr g = some g' → stateInv g' := by
  induction pr with
  | done =>
    intro g g' hg h
    cases h
    exact hg
  | op o rest ih =>
    intro g g' hg h
    simp only [execProg] at h
    rcases h1 : execOp o g with _ | g1
    · rw [h1] at h
      simp at h
    · rw [h1] at h
      simp only [Option.some_bind] at h
      exact ih g1 g' (stateInv_execOp o g g1 hg h1) h
  | block body rest ihb ihr =>
    intro g g' hg h
    simp only [execProg] at h
    rcases h1 : execProg body g.Indent with _ | gb
    · rw [h1] at h
      simp at h
    · rw [h1] at h
      simp only [Option.map_some', Option.some_bind] at h
      have hgb := ihb g.Indent gb (stateInv_indent g hg) h1
      exact ihr gb.Dedent g' (stateInv_dedent gb hgb) h

lemma stateInv_new : stateInv Generator.New := by
  constructor
  · show (0:Int) ≤ 0
    omega
  · unfold flagBufferInv Generator.New
    simp

lemma flatten_replicate_singleton {α : Type} (k : Nat) (x : α) :
    List.flatten (List.replicate k [x]) = List.replicate k x := by
  induction k with
  | zero => rfl
  | succ k ih => simp [List.replicate_succ, ih]

/-- C1: the claim says the scoped-indentation helper (`Block`) decrements the
depth even when the callback panics, before the failure reaches the caller.
The code has no deferred cleanup: with a callback that panics immediately,
`Block` propagates the panic while the indentation level is still
incremented, so the `Dedent` never runs and the caller observes depth 1. -/
theorem block_panic_skips_dedent :
    Generator.Block Generator.New (fun h => Except.error h) =
      Except.error Generator.New.Indent ∧
    Generator.New.Indent.indentLevel = 1 := by
  constructor
  · rfl
  · decide

/-- C2: the core write primitive `Inline`: empty content is a no-op;
otherwise the content is split on newlines into sublines `p :: ps`; the
first subline contributes its text prefixed by the indentation, computed as
unit repeated depth times, exactly when the cursor is at line start and the
subline is non-empty; each later subline is preceded by exactly one break
and, when non-empty, written from line start with the indentation prefix;
empty sublines write nothing; the final cursor is at line start iff the
content ends with a newline; and no break beyond those embedded in the
content is appended. -/
theorem inline_core_write_spec (g : Generator) (c : Str) (p : Str) (ps : List Str)
    (hd : 0 ≤ g.indentLevel) (hsplit : splitOnNl c = p :: ps) :
    g.Inline c = some (if c = [] then g else { g with
      sb := g.sb ++ rPiece (padOf g) g.atStartOfLine p ++ rTail (padOf g) ps,
      atStartOfLine := endsWithNl c }) := by
  by_cases hc : c = []
  · rw [if_pos hc, hc, inline_nil]
  · rw [if_neg hc]
    exact inline_eq g c hd hc p ps hsplit

theorem inline_core_write_spec_witness :
    Generator.New.Indent.Inline ['a', '\n', '\n', 'b'] =
      some (if (['a', '\n', '\n', 'b'] : Str) = [] then Generator.New.Indent
        else { Generator.New.Indent with
          sb := Generator.New.Indent.sb ++
            rPiece (padOf Generator.New.Indent) Generator.New.Indent.atStartOfLine ['a'] ++
            rTail (padOf Generator.New.Indent) [[], ['b']],
          atStartOfLine := endsWithNl ['a', '\n', '\n', 'b'] }) :=
  inline_core_write_spec Generator.New.Indent ['a', '\n', '\n', 'b'] ['a'] [[], ['b']]
    (by decide) (by decide)

/-- C3 counterexample: the claim says a format mismatch surfaces as a
caller-visible error and the operation performs no write.  In fact `Linef`
with verb `%d` and a string argument neither fails (the result is not
`none`) nor leaves the generator unchanged: the annotated text is written. -/
theorem linef_mismatch_not_error_not_unchanged :
    ¬(Generator.Linef Generator.New ['%', 'd'] [FmtArg.str ['x']] = none ∨
      Generator.Linef Generator.New ['%', 'd'] [FmtArg.str ['x']] = some Generator.New) := by
  decide

/-- C3 amended: a mismatch in a formatted write is reported in-band, not as
an error: the formatter embeds the annotation `%!d(string=x)` in the
interpolated string, and the operation then writes that complete annotated
string (plus its terminating break); previously committed buffer content is
untouched, remaining as an unchanged prefix. -/
theorem linef_mismatch_inband (g : Generator) (hd : 0 ≤ g.indentLevel) :
    ∃ g', Generator.Linef g ['%', 'd'] [FmtArg.str ['x']] = some g' ∧
      g'.sb = g.sb ++ (if g.atStartOfLine then padOf g else []) ++ "%!d(string=x)\n".data ∧
      g'.atStartOfLine = true := by
  have hfmt : fmtSprintf ['%', 'd'] [FmtArg.str ['x']] = "%!d(string=x)".data := by decide
  have hnl : '\n' ∉ "%!d(string=x)".data := by decide
  have hne : "%!d(string=x)".data ≠ [] := by decide
  have hsplit := splitOnNl_of_no_nl "%!d(string=x)".data hnl
  have hres := inline_eq g "%!d(string=x)".data hd hne "%!d(string=x)".data [] hsplit
  have hsn : "%!d(string=x)".data ++ ['\n'] = "%!d(string=x)\n".data := by decide
  refine ⟨Generator.Break { g with
      sb := g.sb ++ rPiece (padOf g) g.atStartOfLine ("%!d(string=x)".data) ++
        rTail (padOf g) [],
      atStartOfLine := endsWithNl "%!d(string=x)".data }, ?_, ?_, rfl⟩
  · unfold Generator.Linef Generator.Line
    rw [hfmt, hres]
    rfl
  · show (g.sb ++ rPiece (padOf g) g.atStartOfLine ("%!d(string=x)".data) ++
        rTail (padOf g) []) ++ ['\n'] =
      g.sb ++ (if g.atStartOfLine then padOf g else []) ++ "%!d(string=x)\n".data
    simp only [rPiece, rTail, if_neg hne, List.map_nil, List.flatten_nil,
      List.append_nil, List.append_assoc]
    rw [hsn]

theorem linef_mismatch_inband_witness :
    ∃ g', Generator.Linef Generator.New ['%', 'd'] [FmtArg.str ['x']] = some g' ∧
      g'.sb = Generator.New.sb ++
        (if Generator.New.atStartOfLine then padOf Generator.New else []) ++
        "%!d(string=x)\n".data ∧
      g'.atStartOfLine = true :=
  linef_mismatch_inband Generator.New (by decide)

/-- C4: over every sequence of operations run from a new generator, the
indentation depth stays non-negative, and `Dedent` at depth zero leaves the
depth at zero (saturation, no error). -/
theorem indent_depth_nonneg (pr : Prog) (g' : Generator)
    (h : execProg pr Generator.New = some g') :
    0 ≤ g'.indentLevel ∧ (g'.indentLevel = 0 → (g'.Dedent).indentLevel = 0) := by
  have hinv := stateInv_execProg pr Generator.New g' stateInv_new h
  refine ⟨hinv.1, ?_⟩
  intro h0
  unfold Generator.Dedent
  rw [h0]
  rw [if_neg (lt_irrefl (0 : Int))]
  exact h0

theorem indent_depth_nonneg_witness :
    0 ≤ Generator.New.indentLevel ∧
    (Generator.New.indentLevel = 0 → (Generator.New.Dedent).indentLevel = 0) :=
  indent_depth_nonneg (.op .indent (.op .dedent (.op .dedent .done))) Generator.New
    (by decide)

/-- C5: `Raw` appends the content verbatim (no indentation, no splitting);
afterwards, for non-empty content, the at-line-start flag is true iff the
content's last character is a newline; empty content is a complete no-op. -/
theorem raw_verbatim (g : Generator) (c : Str) :
    (g.Raw c).sb = g.sb ++ c ∧
    (c ≠ [] → ((g.Raw c).atStartOfLine = true ↔ c.getLast? = some '\n')) ∧
    (c = [] → g.Raw c = g) := by
  unfold Generator.Raw
  by_cases hc : c = []
  · rw [if_pos hc]
    exact ⟨by rw [hc]; simp, fun h => absurd hc h, fun _ => rfl⟩
  · rw [if_neg hc]
    exact ⟨rfl, fun _ => endsWithNl_iff c, fun h => absurd h hc⟩

theorem raw_verbatim_witness :
    (Generator.New.Raw ['x', '\n']).atStartOfLine = true ↔
      (['x', '\n'] : Str).getLast? = some '\n' :=
  (raw_verbatim Generator.New ['x', '\n']).2.1 (by decide)

/-- C6: `Line` is exactly `Inline` followed by `Break`: the same
intermediate generator `Inline` produces is then given one trailing break,
and the final cursor is unconditionally at start of line with exactly one
break appended after the content's own breaks. -/
theorem line_is_inline_then_break (g : Generator) (c : Str) (hd : 0 ≤ g.indentLevel) :
    ∃ gi, g.Inline c = some gi ∧
      g.Line c = some gi.Break ∧
      gi.Break.atStartOfLine = true ∧
      gi.Break.sb = gi.sb ++ ['\n'] := by
  have hsome : ∃ gi, g.Inline c = some gi := by
    by_cases hc : c = []
    · exact ⟨g, by rw [hc, inline_nil]⟩
    · obtain ⟨p, ps, hsplit⟩ := splitOnNl_cons c
      exact ⟨_, inline_eq g c hd hc p ps hsplit⟩
  obtain ⟨gi, hgi⟩ := hsome
  refine ⟨gi, hgi, ?_, rfl, rfl⟩
  unfold Generator.Line
  rw [hgi]
  rfl

theorem line_is_inline_then_break_witness :
    ∃ gi, Generator.New.Inline ['a'] = some gi ∧
      Generator.New.Line ['a'] = some gi.Break ∧
      gi.Break.atStartOfLine = true ∧
      gi.Break.sb = gi.sb ++ ['\n'] :=
  line_is_inline_then_break Generator.New ['a'] (by decide)

/-- C7: round-trip: writing content without embedded breaks through `Inline`
on a generator at depth 0, at start of line, with an empty buffer, then
materializing with `String`, returns exactly the content. -/
theorem inline_roundtrip (g : Generator) (c : Str)
    (hb : g.sb = []) (hdep : g.indentLevel = 0) (hstart : g.atStartOfLine = true)
    (hnl : '\n' ∉ c) :
    ∃ g', g.Inline c = some g' ∧ g'.String = c := by
  by_cases hc : c = []
  · exact ⟨g, by rw [hc, inline_nil], by rw [Generator.String, hb, hc]⟩
  · have hsplit := splitOnNl_of_no_nl c hnl
    have hres := inline_eq g c (by rw [hdep]) hc c [] hsplit
    refine ⟨_, hres, ?_⟩
    have hpad : padOf g = [] := by simp [padOf, hdep]
    show g.sb ++ rPiece (padOf g) g.atStartOfLine c ++ rTail (padOf g) [] = c
    rw [hb, hpad, hstart]
    simp [rPiece, rTail, hc]

theorem inline_roundtrip_witness :
    ∃ g', Generator.New.Inline ['a', 'b', 'c'] = some g' ∧
      g'.String = ['a', 'b', 'c'] :=
  inline_roundtrip Generator.New ['a', 'b', 'c'] (by decide) (by decide) (by decide)
    (by decide)

/-- C8: each formatted variant is exactly its base operation applied to the
externally interpolated string: `Linef` to `Line`, `Inlinef` to `Inline`,
`Rawf` to `Raw`, for every generator state, template and argument list. -/
theorem formatted_variants_delegate (g : Generator) (f : Str) (args : List FmtArg) :
    Generator.Linef g f args = Generator.Line g (fmtSprintf f args) ∧
    Generator.Inlinef g f args = Generator.Inline g (fmtSprintf f args) ∧
    Generator.Rawf g f args = Generator.Raw g (fmtSprintf f args) :=
  ⟨rfl, rfl, rfl⟩

/-- C9: after every sequence of operations from a new generator, the
at-line-start flag is true iff the buffer is empty or ends with a newline:
every operation preserves this relation. -/
theorem flag_buffer_relation (pr : Prog) (g' : Generator)
    (h : execProg pr Generator.New = some g') :
    g'.atStartOfLine = true ↔ (g'.sb = [] ∨ g'.sb.getLast? = some '\n') :=
  (stateInv_execProg pr Generator.New g' stateInv_new h).2

theorem flag_buffer_relation_witness :
    ({ sb := ['a', '\n'], indentLevel := 0, indentString := [' ', ' '],
       atStartOfLine := true } : Generator).atStartOfLine = true ↔
      (({ sb := ['a', '\n'], indentLevel := 0, indentString := [' ', ' '],
          atStartOfLine := true } : Generator).sb = [] ∨
       ({ sb := ['a', '\n'], indentLevel := 0, indentString := [' ', ' '],
          atStartOfLine := true } : Generator).sb.getLast? = some '\n') :=
  flag_buffer_relation (.op (.inline ['a', '\n']) .done)
    { sb := ['a', '\n'], indentLevel := 0, indentString := [' ', ' '],
      atStartOfLine := true } (by decide)

/-- C10: the space-indentation configuration `WithSpaces` succeeds for every
non-negative count, setting the unit to that many spaces, and panics (via
the repeated-string construction) for every negative count. -/
theorem withSpaces_nonneg_total (g : Generator) (n : Int) :
    (0 ≤ n → g.WithSpaces n = some { g with indentString := List.replicate n.toNat ' ' }) ∧
    (n < 0 → g.WithSpaces n = none) := by
  constructor
  · intro h
    unfold Generator.WithSpaces
    rw [stringsRepeat_of_nonneg _ _ h]
    simp only [Option.map_some']
    rw [flatten_replicate_singleton]
  · intro h
    unfold Generator.WithSpaces stringsRepeat
    rw [if_pos h]
    rfl

theorem withSpaces_nonneg_total_witness :
    Generator.New.WithSpaces 4 =
      some { Generator.New with indentString := List.replicate (4 : Int).toNat ' ' } ∧
    Generator.New.WithSpaces (-3) = none :=
  ⟨(withSpaces_nonneg_total Generator.New 4).1 (by decide),
   (withSpaces_nonneg_total Generator.New (-3)).2 (by decide)⟩
